import Mathlib

/-!
Shallow embedding of the option-pricing core of the repository:
the Black-Scholes-Merton formulas (src/options_desk/pricing/black_scholes.py),
the Heston and Merton jump-diffusion pricers and the implied-volatility
solver (backend/services/advanced_pricing.py), and the volatility-surface
interpolation fallback logic (backend/services/surface_service.py).

Floating-point arithmetic is modelled by exact reals.  Calls into external
numerical routines (scipy.integrate.quad, scipy.optimize.brentq,
scipy.interpolate.griddata) are modelled by oracle arguments whose `none`
case models the routine raising an exception; for quad and brentq the
source catches the raise and substitutes a fallback value, while for the
griddata cascade the retry path is outside any try/except, so a raise
there propagates to the caller (an `Option` result in the model).
-/

open MeasureTheory Real Set

noncomputable section

/-- OptionType enumeration from src/options_desk/core/option.py. -/
inductive OptionType
  | CALL
  | PUT
deriving DecidableEq

/-- Standard normal probability density, the model of scipy.stats.norm.pdf. -/
def normPdf (x : ℝ) : ℝ := (Real.sqrt (2 * Real.pi))⁻¹ * Real.exp (-(1 / 2) * x ^ 2)

/-- Standard normal cumulative distribution, the model of scipy.stats.norm.cdf. -/
def normCdf (x : ℝ) : ℝ := ∫ t in Iic x, normPdf t

/-- The d1 helper of the Black-Scholes formula (`_d1` in black_scholes.py). -/
def _d1 (spot strike time_to_expiry rate volatility : ℝ) (dividend : ℝ := 0) : ℝ :=
  (Real.log (spot / strike) + (rate - dividend + 0.5 * volatility ^ 2) * time_to_expiry) /
    (volatility * Real.sqrt time_to_expiry)

/-- The d2 helper of the Black-Scholes formula (`_d2` in black_scholes.py). -/
def _d2 (d1 volatility time_to_expiry : ℝ) : ℝ := d1 - volatility * Real.sqrt time_to_expiry

/-- `black_scholes_price` from black_scholes.py. -/
def black_scholes_price (spot strike time_to_expiry rate volatility : ℝ)
    (option_type : OptionType) (dividend : ℝ := 0) : ℝ :=
  if time_to_expiry ≤ 0 then
    match option_type with
    | .CALL => max 0 (spot - strike)
    | .PUT => max 0 (strike - spot)
  else
    let d_1 := _d1 spot strike time_to_expiry rate volatility dividend
    let d_2 := _d2 d_1 volatility time_to_expiry
    match option_type with
    | .CALL =>
        spot * Real.exp (-dividend * time_to_expiry) * normCdf d_1 -
          strike * Real.exp (-rate * time_to_expiry) * normCdf d_2
    | .PUT =>
        strike * Real.exp (-rate * time_to_expiry) * normCdf (-d_2) -
          spot * Real.exp (-dividend * time_to_expiry) * normCdf (-d_1)

/-- `black_scholes_delta` from black_scholes.py. -/
def black_scholes_delta (spot strike time_to_expiry rate volatility : ℝ)
    (option_type : OptionType) (dividend : ℝ := 0) : ℝ :=
  if time_to_expiry ≤ 0 then
    match option_type with
    | .CALL => if spot > strike then 1 else 0
    | .PUT => if spot < strike then -1 else 0
  else
    let d_1 := _d1 spot strike time_to_expiry rate volatility dividend
    match option_type with
    | .CALL => Real.exp (-dividend * time_to_expiry) * normCdf d_1
    | .PUT => -(Real.exp (-dividend * time_to_expiry) * normCdf (-d_1))

/-- `black_scholes_gamma` from black_scholes.py. -/
def black_scholes_gamma (spot strike time_to_expiry rate volatility : ℝ)
    (dividend : ℝ := 0) : ℝ :=
  if time_to_expiry ≤ 0 then 0
  else
    let d_1 := _d1 spot strike time_to_expiry rate volatility dividend
    Real.exp (-dividend * time_to_expiry) * normPdf d_1 /
      (spot * volatility * Real.sqrt time_to_expiry)

/-- `black_scholes_vega` from black_scholes.py. -/
def black_scholes_vega (spot strike time_to_expiry rate volatility : ℝ)
    (dividend : ℝ := 0) : ℝ :=
  if time_to_expiry ≤ 0 then 0
  else
    let d_1 := _d1 spot strike time_to_expiry rate volatility dividend
    spot * Real.exp (-dividend * time_to_expiry) * normPdf d_1 *
      Real.sqrt time_to_expiry / 100

/-- `black_scholes_theta` from black_scholes.py. -/
def black_scholes_theta (spot strike time_to_expiry rate volatility : ℝ)
    (option_type : OptionType) (dividend : ℝ := 0) : ℝ :=
  if time_to_expiry ≤ 0 then 0
  else
    let d_1 := _d1 spot strike time_to_expiry rate volatility dividend
    let d_2 := _d2 d_1 volatility time_to_expiry
    let term1 := -spot * Real.exp (-dividend * time_to_expiry) * normPdf d_1 * volatility /
      (2 * Real.sqrt time_to_expiry)
    match option_type with
    | .CALL =>
        (term1 + dividend * spot * Real.exp (-dividend * time_to_expiry) * normCdf d_1 +
          -rate * strike * Real.exp (-rate * time_to_expiry) * normCdf d_2) / 365.25
    | .PUT =>
        (term1 + -dividend * spot * Real.exp (-dividend * time_to_expiry) * normCdf (-d_1) +
          rate * strike * Real.exp (-rate * time_to_expiry) * normCdf (-d_2)) / 365.25

namespace HestonModel

/-- `HestonModel._heston_probability` from advanced_pricing.py.  The numerical
integration `quad(integrand, 0, 100)` over the characteristic-function
integrand is external; its outcome is the oracle argument `integral`
(`none` models the integration raising, which the source catches and maps
to the 0.5 fallback). -/
def _heston_probability (integral : Option ℝ) : ℝ :=
  match integral with
  | some i => 0.5 + (1 / Real.pi) * i
  | none => 0.5

/-- `HestonModel.price` from advanced_pricing.py.  `I1` and `I2` are the
oracle outcomes of the two `quad` integrations behind P1 and P2; the model
parameters v0, theta, kappa, sigma_v, rho only feed those integrations. -/
def price (I1 I2 : Option ℝ) (spot strike time_to_expiry rate : ℝ)
    (option_type : OptionType) : ℝ :=
  if time_to_expiry ≤ 0 then
    match option_type with
    | .CALL => max 0 (spot - strike)
    | .PUT => max 0 (strike - spot)
  else
    let P1 := _heston_probability I1
    let P2 := _heston_probability I2
    match option_type with
    | .CALL => max 0 (spot * P1 - strike * Real.exp (-rate * time_to_expiry) * P2)
    | .PUT => max 0 (strike * Real.exp (-rate * time_to_expiry) * (1 - P2) - spot * (1 - P1))

end HestonModel

/-- The Poisson weight of the n-jump term in `MertonJumpDiffusion.price`:
exp(-lambda_prime*T) * (lambda_prime*T)^n / n!. -/
def poissonProb (lambda_prime time_to_expiry : ℝ) (n : ℕ) : ℝ :=
  Real.exp (-lambda_prime * time_to_expiry) * (lambda_prime * time_to_expiry) ^ n /
    (Nat.factorial n)

/-- The Black-Scholes-with-adjusted-parameters price of the n-jump term in the
body of the `MertonJumpDiffusion.price` loop (`bs_price` in the source). -/
def mertonTerm (spot strike time_to_expiry rate sigma lambda_j mu_j sigma_j : ℝ)
    (option_type : OptionType) (n : ℕ) : ℝ :=
  let sigma_n := Real.sqrt (sigma ^ 2 + n * sigma_j ^ 2 / time_to_expiry)
  let r_n := rate - lambda_j * mu_j + n * Real.log (1 + mu_j) / time_to_expiry
  let d1 := (Real.log (spot / strike) + (r_n + 0.5 * sigma_n ^ 2) * time_to_expiry) /
    (sigma_n * Real.sqrt time_to_expiry)
  let d2 := d1 - sigma_n * Real.sqrt time_to_expiry
  match option_type with
  | .CALL =>
      spot * Real.exp ((r_n - rate) * time_to_expiry) * normCdf d1 -
        strike * Real.exp (-rate * time_to_expiry) * normCdf d2
  | .PUT =>
      strike * Real.exp (-rate * time_to_expiry) * normCdf (-d2) -
        spot * Real.exp ((r_n - rate) * time_to_expiry) * normCdf (-d1)

/-- The `for n in range(max_jumps)` accumulation loop of
`MertonJumpDiffusion.price`: starting at index `n` with `fuel` iterations
left, stop as soon as the weight `w n` drops below 1e-10, otherwise add
`w n * term n` and continue. -/
def mertonLoop (w term : ℕ → ℝ) : ℕ → ℕ → ℝ
  | _, 0 => 0
  | n, fuel + 1 =>
    if w n < 1e-10 then 0 else w n * term n + mertonLoop w term (n + 1) fuel

/-- The index at which `mertonLoop` starting at `n` with `fuel` iterations
left stops: the offset of the first weight below 1e-10, or `fuel` if none
occurs within the budget. -/
def stopFrom (w : ℕ → ℝ) : ℕ → ℕ → ℕ
  | _, 0 => 0
  | n, fuel + 1 =>
    if w n < 1e-10 then 0 else stopFrom w (n + 1) fuel + 1

namespace MertonJumpDiffusion

/-- `MertonJumpDiffusion.price` from advanced_pricing.py. -/
def price (spot strike time_to_expiry rate sigma lambda_j mu_j sigma_j : ℝ)
    (option_type : OptionType) (max_jumps : ℕ := 50) : ℝ :=
  if time_to_expiry ≤ 0 then
    match option_type with
    | .CALL => max 0 (spot - strike)
    | .PUT => max 0 (strike - spot)
  else
    let lambda_prime := lambda_j * (1 + mu_j)
    max 0 (mertonLoop (poissonProb lambda_prime time_to_expiry)
      (mertonTerm spot strike time_to_expiry rate sigma lambda_j mu_j sigma_j option_type)
      0 max_jumps)

end MertonJumpDiffusion

/-- The model names accepted by `implied_volatility_from_price`. -/
inductive PricingModel
  | black_scholes
  | heston
  | merton
deriving DecidableEq

/-- The `objective` closure inside `implied_volatility_from_price`: the
pricing-model branch minus the market price.  Both branches of the `if
model == "black_scholes"` dispatch call `black_scholes_price` on the same
arguments (for advanced models Black-Scholes is used as the approximation). -/
def iv_objective (market_price spot strike time_to_expiry rate : ℝ)
    (option_type : OptionType) (model : PricingModel) : ℝ → ℝ :=
  fun vol =>
    (match model with
     | .black_scholes => black_scholes_price spot strike time_to_expiry rate vol option_type 0
     | _ => black_scholes_price spot strike time_to_expiry rate vol option_type 0) -
      market_price

/-- `implied_volatility_from_price` from advanced_pricing.py.  The external
bracketed root finder `scipy.optimize.brentq(objective, 0.001, 5.0)` is the
oracle argument `brentq` (`none` models it raising, e.g. when the bracket
fails, which the source catches and maps to the 0.20 fallback).
`model_params` is accepted and never read, as in the source. -/
def implied_volatility_from_price (brentq : (ℝ → ℝ) → Option ℝ)
    (market_price spot strike time_to_expiry rate : ℝ) (option_type : OptionType)
    (model : PricingModel := .black_scholes)
    (model_params : Option (List (ℝ × ℝ)) := none) : ℝ :=
  if time_to_expiry ≤ 0 ∨ market_price ≤ 0 then 0
  else
    match brentq (iv_objective market_price spot strike time_to_expiry rate
        option_type model) with
    | some iv => max 0.001 (min 5.0 iv)
    | none => 0.20

/-- VolSurfacePoint from backend/schemas/surface.py. -/
structure VolSurfacePoint where
  strike : ℝ
  expiry : ℝ
  implied_vol : ℝ
  moneyness : ℝ
deriving DecidableEq

namespace SurfaceService

/-- `SurfaceService._interpolate_surface` from surface_service.py.  The
grid construction and the cascaded griddata interpolation (cubic inside a
try, its NaN cells filled by linear then nearest; on an exception from the
cubic step a linear-then-nearest retry that sits OUTSIDE any try/except)
are external scipy routines; the oracle argument `gridIV` models the
outcome of the whole cascade.  `none` models the uncaught retry itself
raising (e.g. scipy QhullError on coincident or collinear point sets),
which nothing catches, so the exception propagates to the caller: the
model returns `none` and no point list is produced.  `some cells` gives,
for each grid cell (i, j) in loop order, its moneyness M[i,j], its expiry
E[i,j], and the interpolated value IV_grid[i,j] (`none` models NaN).  The
function keeps the cells whose value is neither NaN nor non-positive; if
none survive it falls back to the raw points, and with fewer than 4 raw
points it returns them unchanged without touching the cascade. -/
def _interpolate_surface (gridIV : Option (List (ℝ × ℝ × Option ℝ)))
    (raw_points : List VolSurfacePoint) (spot_price : ℝ) :
    Option (List VolSurfacePoint) :=
  if raw_points.length < 4 then some raw_points
  else
    match gridIV with
    | none => none
    | some cells =>
      let interpolated_points := cells.filterMap fun cell =>
        match cell.2.2 with
        | none => none
        | some v =>
          if v ≤ 0 then none
          else some ⟨cell.1 * spot_price, cell.2.1, v, cell.1⟩
      some (if interpolated_points.isEmpty then raw_points else interpolated_points)

end SurfaceService

end

section NormCdfLemmas

lemma normPdf_pos (x : ℝ) : 0 < normPdf x := by
  have h2π : (0 : ℝ) < 2 * Real.pi := by positivity
  exact mul_pos (inv_pos.mpr (Real.sqrt_pos.mpr h2π)) (Real.exp_pos _)

lemma normPdf_nonneg (x : ℝ) : 0 ≤ normPdf x := (normPdf_pos x).le

lemma continuous_normPdf : Continuous normPdf := by
  unfold normPdf
  fun_prop

lemma integrable_normPdf : Integrable normPdf := by
  have h := (integrable_exp_neg_mul_sq (by norm_num : (0:ℝ) < 1/2)).const_mul
    ((Real.sqrt (2 * Real.pi))⁻¹)
  unfold normPdf
  exact h

lemma integral_normPdf : ∫ x : ℝ, normPdf x = 1 := by
  have h : ∫ x : ℝ, Real.exp (-(1/2) * x ^ 2) = Real.sqrt (Real.pi / (1/2)) :=
    integral_gaussian (1/2)
  have h2 : Real.pi / (1/2 : ℝ) = 2 * Real.pi := by ring
  unfold normPdf
  rw [MeasureTheory.integral_mul_left, h, h2]
  have hne : Real.sqrt (2 * Real.pi) ≠ 0 :=
    ne_of_gt (Real.sqrt_pos.mpr (by positivity))
  exact inv_mul_cancel₀ hne

lemma normCdf_nonneg (x : ℝ) : 0 ≤ normCdf x :=
  setIntegral_nonneg measurableSet_Iic fun t _ => normPdf_nonneg t

lemma normCdf_le_one (x : ℝ) : normCdf x ≤ 1 := by
  have h := setIntegral_le_integral (s := Iic x) integrable_normPdf
    (Filter.Eventually.of_forall normPdf_nonneg)
  rwa [integral_normPdf] at h

lemma normCdf_pos (x : ℝ) : 0 < normCdf x := by
  rw [normCdf, setIntegral_pos_iff_support_of_nonneg_ae
    (Filter.Eventually.of_forall normPdf_nonneg) integrable_normPdf.integrableOn]
  have hsupp : Function.support normPdf = Set.univ := by
    ext t
    simp [Function.mem_support, ne_of_gt (normPdf_pos t)]
  rw [hsupp, Set.univ_inter, Real.volume_Iic]
  exact ENNReal.zero_lt_top

lemma normPdf_neg (x : ℝ) : normPdf (-x) = normPdf x := by
  simp [normPdf]

lemma normCdf_neg_eq_Ioi (x : ℝ) : normCdf (-x) = ∫ t in Ioi x, normPdf t := by
  have h : (∫ t in Iic (-x), normPdf (-t)) = ∫ t in Ioi x, normPdf t := by
    simpa using integral_comp_neg_Iic (-x) normPdf
  have h2 : (∫ t in Iic (-x), normPdf (-t)) = ∫ t in Iic (-x), normPdf t := by
    refine setIntegral_congr_fun measurableSet_Iic fun t _ => normPdf_neg t
  rw [normCdf, ← h2, h]

lemma normCdf_add_normCdf_neg (x : ℝ) : normCdf x + normCdf (-x) = 1 := by
  rw [normCdf, normCdf_neg_eq_Ioi]
  rw [intervalIntegral.integral_Iic_add_Ioi integrable_normPdf.integrableOn
    integrable_normPdf.integrableOn, integral_normPdf]

lemma normCdf_eq_add_intervalIntegral (x : ℝ) :
    normCdf x = normCdf 0 + ∫ t in (0:ℝ)..x, normPdf t := by
  have h := intervalIntegral.integral_Iic_sub_Iic (μ := volume) (f := normPdf)
    integrable_normPdf.integrableOn integrable_normPdf.integrableOn (a := 0) (b := x)
  rw [normCdf, normCdf]
  linarith [h]

lemma hasDerivAt_normCdf (x : ℝ) : HasDerivAt normCdf (normPdf x) x := by
  have hint : IntervalIntegrable normPdf volume 0 x :=
    integrable_normPdf.intervalIntegrable
  have hmeas : StronglyMeasurableAtFilter normPdf (nhds x) :=
    continuous_normPdf.stronglyMeasurable.stronglyMeasurableAtFilter
  have hd := intervalIntegral.integral_hasDerivAt_right hint hmeas
    continuous_normPdf.continuousAt
  have hfun : (fun u => normCdf 0 + ∫ t in (0:ℝ)..u, normPdf t) = normCdf := by
    funext u
    rw [normCdf_eq_add_intervalIntegral u]
  have := (hd.const_add (normCdf 0))
  rwa [hfun] at this

lemma tendsto_normPdf_atBot : Filter.Tendsto normPdf Filter.atBot (nhds 0) := by
  have hsq : Filter.Tendsto (fun t : ℝ => t ^ 2) Filter.atBot Filter.atTop := by
    have h := (Filter.tendsto_pow_atTop (two_ne_zero)).comp
      (Filter.tendsto_neg_atBot_atTop (β := ℝ))
    refine h.congr fun t => ?_
    simp [neg_pow]
  have hexp : Filter.Tendsto (fun t : ℝ => Real.exp (-(1/2) * t ^ 2))
      Filter.atBot (nhds 0) := by
    refine Real.tendsto_exp_atBot.comp ?_
    have h1 : Filter.Tendsto (fun t : ℝ => (1/2) * t ^ 2) Filter.atBot Filter.atTop :=
      (Filter.Tendsto.const_mul_atTop (by norm_num) hsq)
    have h2 := (Filter.tendsto_neg_atTop_atBot (β := ℝ)).comp h1
    refine h2.congr fun t => ?_
    simp
  have h := hexp.const_mul ((Real.sqrt (2 * Real.pi))⁻¹)
  rw [mul_zero] at h
  unfold normPdf
  exact h

lemma integral_Iic_id_mul_normPdf (x : ℝ) :
    ∫ t in Iic x, t * normPdf t = -normPdf x := by
  have hderiv : ∀ t ∈ Iio x, HasDerivAt (fun u => -normPdf u) (t * normPdf t) t := by
    intro t _
    have h1 : HasDerivAt (fun u : ℝ => -(1/2) * u ^ 2) (-t) t := by
      have := (hasDerivAt_pow 2 t).const_mul (-(1/2) : ℝ)
      convert this using 1
      ring
    have h2 := h1.exp
    have h3 := (h2.const_mul ((Real.sqrt (2 * Real.pi))⁻¹)).neg
    convert h3 using 1
    unfold normPdf
    ring
  have hint : IntegrableOn (fun t => t * normPdf t) (Iic x) := by
    have h := (integrable_mul_exp_neg_mul_sq (by norm_num : (0:ℝ) < 1/2)).const_mul
      ((Real.sqrt (2 * Real.pi))⁻¹)
    have heq : (fun t : ℝ => t * normPdf t) =
        fun t : ℝ => (Real.sqrt (2 * Real.pi))⁻¹ * (t * Real.exp (-(1/2) * t ^ 2)) := by
      funext t
      unfold normPdf
      ring
    rw [heq]
    exact h.integrableOn
  have hcont : ContinuousWithinAt (fun u => -normPdf u) (Iic x) x :=
    (continuous_normPdf.neg.continuousAt).continuousWithinAt
  have htend : Filter.Tendsto (fun u => -normPdf u) Filter.atBot (nhds 0) := by
    have := tendsto_normPdf_atBot.neg
    simpa using this
  have h := MeasureTheory.integral_Iic_of_hasDerivAt_of_tendsto hcont hderiv hint htend
  rw [h]
  ring

lemma mills_bound (x : ℝ) : 0 ≤ normPdf x + x * normCdf x := by
  have hmono : ∫ t in Iic x, t * normPdf t ≤ ∫ t in Iic x, x * normPdf t := by
    refine setIntegral_mono_on ?_ ?_ measurableSet_Iic fun t ht => ?_
    · have h := (integrable_mul_exp_neg_mul_sq (by norm_num : (0:ℝ) < 1/2)).const_mul
        ((Real.sqrt (2 * Real.pi))⁻¹)
      have heq : (fun t : ℝ => t * normPdf t) =
          fun t : ℝ => (Real.sqrt (2 * Real.pi))⁻¹ * (t * Real.exp (-(1/2) * t ^ 2)) := by
        funext t
        unfold normPdf
        ring
      rw [heq]
      exact h.integrableOn
    · exact (integrable_normPdf.const_mul x).integrableOn
    · exact mul_le_mul_of_nonneg_right ht (normPdf_nonneg t)
  rw [integral_Iic_id_mul_normPdf, MeasureTheory.integral_mul_left] at hmono
  have : (∫ t in Iic x, normPdf t) = normCdf x := rfl
  rw [this] at hmono
  linarith

lemma normCdf_le_exp_mul_normCdf_add (d s : ℝ) (hs : 0 ≤ s) :
    normCdf d ≤ Real.exp (s * d + s ^ 2 / 2) * normCdf (d + s) := by
  set g : ℝ → ℝ := fun u => Real.log (normCdf (d + u)) + u * d + u ^ 2 / 2 with hg_def
  have hg : ∀ u, HasDerivAt g (normPdf (d + u) / normCdf (d + u) + (d + u)) u := by
    intro u
    have hinner : HasDerivAt (fun v : ℝ => normCdf (d + v)) (normPdf (d + u)) u := by
      have hadd : HasDerivAt (fun v : ℝ => d + v) 1 u :=
        (hasDerivAt_id u).const_add d
      have := (hasDerivAt_normCdf (d + u)).comp u hadd
      simpa using this
    have hlog := hinner.log (ne_of_gt (normCdf_pos (d + u)))
    have hlin : HasDerivAt (fun v : ℝ => v * d) d u := hasDerivAt_mul_const d
    have hsq : HasDerivAt (fun v : ℝ => v ^ 2 / 2) u u := by
      have := (hasDerivAt_pow 2 u).div_const 2
      convert this using 1
      ring
    have := (hlog.add hlin).add hsq
    convert this using 1
    ring
  have hdiff : Differentiable ℝ g := fun u => (hg u).differentiableAt
  have hderiv_nonneg : ∀ u, 0 ≤ deriv g u := by
    intro u
    rw [(hg u).deriv]
    set y := d + u with hy
    have hpos := normCdf_pos y
    have hmills := mills_bound y
    have h := div_nonneg hmills hpos.le
    rw [add_div, mul_div_assoc, div_self (ne_of_gt hpos), mul_one] at h
    linarith
  have hmono : Monotone g := monotone_of_deriv_nonneg hdiff hderiv_nonneg
  have h0s : g 0 ≤ g s := hmono hs
  have hg0 : g 0 = Real.log (normCdf d) := by
    simp [hg_def]
  rw [hg0] at h0s
  have hlog_le : Real.log (normCdf d) ≤
      Real.log (normCdf (d + s)) + (s * d + s ^ 2 / 2) := by
    have : g s = Real.log (normCdf (d + s)) + s * d + s ^ 2 / 2 := rfl
    rw [this] at h0s
    linarith
  have := Real.exp_le_exp.mpr hlog_le
  rw [Real.exp_log (normCdf_pos d), Real.exp_add,
    Real.exp_log (normCdf_pos (d + s))] at this
  linarith [this]

end NormCdfLemmas

section BlackScholesLemmas

lemma bs_sd1_eq (S K T r σ q : ℝ) (hT : 0 < T) (hσ : 0 < σ) :
    (σ * Real.sqrt T) * _d1 S K T r σ q =
      Real.log (S / K) + (r - q) * T + (σ * Real.sqrt T) ^ 2 / 2 := by
  have hspos : 0 < σ * Real.sqrt T := mul_pos hσ (Real.sqrt_pos.mpr hT)
  have hs2 : (σ * Real.sqrt T) ^ 2 = σ ^ 2 * T := by
    rw [mul_pow, Real.sq_sqrt hT.le]
  unfold _d1
  rw [mul_comm, div_mul_cancel₀ _ (ne_of_gt hspos), hs2]
  ring

lemma bs_call_term_le (S K T r σ q : ℝ) (hS : 0 < S) (hK : 0 < K) (hT : 0 < T)
    (hσ : 0 < σ) :
    K * Real.exp (-r * T) * normCdf (_d2 (_d1 S K T r σ q) σ T) ≤
      S * Real.exp (-q * T) * normCdf (_d1 S K T r σ q) := by
  have hspos : 0 < σ * Real.sqrt T := mul_pos hσ (Real.sqrt_pos.mpr hT)
  have hsd1 := bs_sd1_eq S K T r σ q hT hσ
  have hL := normCdf_le_exp_mul_normCdf_add (_d2 (_d1 S K T r σ q) σ T)
    (σ * Real.sqrt T) hspos.le
  have hplus : _d2 (_d1 S K T r σ q) σ T + σ * Real.sqrt T = _d1 S K T r σ q := by
    unfold _d2
    ring
  rw [hplus] at hL
  have hexp : (σ * Real.sqrt T) * _d2 (_d1 S K T r σ q) σ T +
      (σ * Real.sqrt T) ^ 2 / 2 = Real.log (S / K) + (r - q) * T := by
    unfold _d2
    linear_combination hsd1
  rw [hexp] at hL
  have hKr : (0:ℝ) ≤ K * Real.exp (-r * T) := by positivity
  have hmul := mul_le_mul_of_nonneg_left hL hKr
  have harr : K * Real.exp (-r * T) *
      (Real.exp (Real.log (S / K) + (r - q) * T) * normCdf (_d1 S K T r σ q)) =
      S * Real.exp (-q * T) * normCdf (_d1 S K T r σ q) := by
    have e1 : Real.exp (-q * T) = Real.exp (-r * T) * Real.exp ((r - q) * T) := by
      rw [← Real.exp_add]
      congr 1
      ring
    rw [e1, Real.exp_add, Real.exp_log (div_pos hS hK)]
    field_simp
    ring
  rw [harr] at hmul
  exact hmul

lemma bs_put_term_le (S K T r σ q : ℝ) (hS : 0 < S) (hK : 0 < K) (hT : 0 < T)
    (hσ : 0 < σ) :
    S * Real.exp (-q * T) * normCdf (-(_d1 S K T r σ q)) ≤
      K * Real.exp (-r * T) * normCdf (-(_d2 (_d1 S K T r σ q) σ T)) := by
  have hspos : 0 < σ * Real.sqrt T := mul_pos hσ (Real.sqrt_pos.mpr hT)
  have hsd1 := bs_sd1_eq S K T r σ q hT hσ
  have hL := normCdf_le_exp_mul_normCdf_add (-(_d1 S K T r σ q))
    (σ * Real.sqrt T) hspos.le
  have hplus : -(_d1 S K T r σ q) + σ * Real.sqrt T = -(_d2 (_d1 S K T r σ q) σ T) := by
    unfold _d2
    ring
  rw [hplus] at hL
  have hexp : (σ * Real.sqrt T) * -(_d1 S K T r σ q) + (σ * Real.sqrt T) ^ 2 / 2 =
      -(Real.log (S / K) + (r - q) * T) := by
    linear_combination -hsd1
  rw [hexp] at hL
  have hSq : (0:ℝ) ≤ S * Real.exp (-q * T) := by positivity
  have hmul := mul_le_mul_of_nonneg_left hL hSq
  have harr : S * Real.exp (-q * T) *
      (Real.exp (-(Real.log (S / K) + (r - q) * T)) *
        normCdf (-(_d2 (_d1 S K T r σ q) σ T))) =
      K * Real.exp (-r * T) * normCdf (-(_d2 (_d1 S K T r σ q) σ T)) := by
    have e1 : Real.exp (-r * T) = Real.exp (-q * T) * Real.exp (-((r - q) * T)) := by
      rw [← Real.exp_add]
      congr 1
      ring
    have e2 : Real.exp (-(Real.log (S / K) + (r - q) * T)) =
        (S / K)⁻¹ * Real.exp (-((r - q) * T)) := by
      rw [neg_add, Real.exp_add, Real.exp_neg, Real.exp_log (div_pos hS hK)]
    rw [e1, e2]
    field_simp
    ring
  rw [harr] at hmul
  exact hmul

lemma black_scholes_price_nonneg (S K T r σ q : ℝ) (hS : 0 < S) (hK : 0 < K)
    (hT : 0 < T) (hσ : 0 < σ) (option_type : OptionType) :
    0 ≤ black_scholes_price S K T r σ option_type q := by
  unfold black_scholes_price
  rw [if_neg (not_le.mpr hT)]
  cases option_type with
  | CALL =>
      simp only []
      exact sub_nonneg.mpr (bs_call_term_le S K T r σ q hS hK hT hσ)
  | PUT =>
      simp only []
      exact sub_nonneg.mpr (bs_put_term_le S K T r σ q hS hK hT hσ)

lemma bs_price_call_of_pos (S K T r σ q : ℝ) (hT : 0 < T) :
    black_scholes_price S K T r σ .CALL q =
      S * Real.exp (-q * T) * normCdf (_d1 S K T r σ q) -
        K * Real.exp (-r * T) * normCdf (_d2 (_d1 S K T r σ q) σ T) := by
  unfold black_scholes_price
  rw [if_neg (not_le.mpr hT)]

lemma bs_price_put_of_pos (S K T r σ q : ℝ) (hT : 0 < T) :
    black_scholes_price S K T r σ .PUT q =
      K * Real.exp (-r * T) * normCdf (-(_d2 (_d1 S K T r σ q) σ T)) -
        S * Real.exp (-q * T) * normCdf (-(_d1 S K T r σ q)) := by
  unfold black_scholes_price
  rw [if_neg (not_le.mpr hT)]

lemma bs_delta_call_of_pos (S K T r σ q : ℝ) (hT : 0 < T) :
    black_scholes_delta S K T r σ .CALL q =
      Real.exp (-q * T) * normCdf (_d1 S K T r σ q) := by
  unfold black_scholes_delta
  rw [if_neg (not_le.mpr hT)]

lemma bs_delta_put_of_pos (S K T r σ q : ℝ) (hT : 0 < T) :
    black_scholes_delta S K T r σ .PUT q =
      -(Real.exp (-q * T) * normCdf (-(_d1 S K T r σ q))) := by
  unfold black_scholes_delta
  rw [if_neg (not_le.mpr hT)]

end BlackScholesLemmas

/-- C2: put-call parity.  For every spot S > 0, strike K > 0, expiry T > 0,
rate r, volatility σ > 0 and dividend q ≥ 0, the Black-Scholes call price
minus the put price on the same inputs equals S*exp(-q*T) - K*exp(-r*T)
(exact real arithmetic). -/
theorem bs_put_call_parity (S K T r σ q : ℝ) (hS : 0 < S) (hK : 0 < K)
    (hT : 0 < T) (hσ : 0 < σ) (hq : 0 ≤ q) :
    black_scholes_price S K T r σ .CALL q - black_scholes_price S K T r σ .PUT q =
      S * Real.exp (-q * T) - K * Real.exp (-r * T) := by
  rw [bs_price_call_of_pos S K T r σ q hT, bs_price_put_of_pos S K T r σ q hT]
  have h1 := normCdf_add_normCdf_neg (_d1 S K T r σ q)
  have h2 := normCdf_add_normCdf_neg (_d2 (_d1 S K T r σ q) σ T)
  linear_combination (S * Real.exp (-q * T)) * h1 - (K * Real.exp (-r * T)) * h2

/-- Witness for C2 at S=100, K=100, T=1, r=0, σ=1, q=0. -/
theorem bs_put_call_parity_witness :
    black_scholes_price 100 100 1 0 1 .CALL 0 - black_scholes_price 100 100 1 0 1 .PUT 0 =
      100 * Real.exp (-0 * 1) - 100 * Real.exp (-0 * 1) :=
  bs_put_call_parity 100 100 1 0 1 0 (by norm_num) (by norm_num) (by norm_num)
    (by norm_num) (by norm_num)

/-- C3: at-expiry edge case.  For time_to_expiry ≤ 0 the price is the exact
intrinsic payoff, delta is the moneyness-based boundary value, and gamma,
vega and theta are exactly 0. -/
theorem bs_at_expiry_values (S K T r σ q : ℝ) (hT : T ≤ 0) :
    black_scholes_price S K T r σ .CALL q = max 0 (S - K) ∧
    black_scholes_price S K T r σ .PUT q = max 0 (K - S) ∧
    black_scholes_delta S K T r σ .CALL q = (if S > K then 1 else 0) ∧
    black_scholes_delta S K T r σ .PUT q = (if S < K then -1 else 0) ∧
    black_scholes_gamma S K T r σ q = 0 ∧
    black_scholes_vega S K T r σ q = 0 ∧
    black_scholes_theta S K T r σ .CALL q = 0 ∧
    black_scholes_theta S K T r σ .PUT q = 0 := by
  refine ⟨?_, ?_, ?_, ?_, ?_, ?_, ?_, ?_⟩ <;>
    first
      | (unfold black_scholes_price; rw [if_pos hT])
      | (unfold black_scholes_delta; rw [if_pos hT])
      | (unfold black_scholes_gamma; rw [if_pos hT])
      | (unfold black_scholes_vega; rw [if_pos hT])
      | (unfold black_scholes_theta; rw [if_pos hT])

/-- Witness for C3 at S=100, K=90, T=0, r=0.05, σ=0.2, q=0. -/
theorem bs_at_expiry_values_witness :
    black_scholes_price 100 90 0 0.05 0.2 .CALL 0 = max 0 (100 - 90) ∧
    black_scholes_price 100 90 0 0.05 0.2 .PUT 0 = max 0 (90 - 100) ∧
    black_scholes_delta 100 90 0 0.05 0.2 .CALL 0 = (if (100:ℝ) > 90 then 1 else 0) ∧
    black_scholes_delta 100 90 0 0.05 0.2 .PUT 0 = (if (100:ℝ) < 90 then -1 else 0) ∧
    black_scholes_gamma 100 90 0 0.05 0.2 0 = 0 ∧
    black_scholes_vega 100 90 0 0.05 0.2 0 = 0 ∧
    black_scholes_theta 100 90 0 0.05 0.2 .CALL 0 = 0 ∧
    black_scholes_theta 100 90 0 0.05 0.2 .PUT 0 = 0 :=
  bs_at_expiry_values 100 90 0 0.05 0.2 0 (by norm_num)

/-- C7: Greek bounds.  For spot > 0, strike > 0, expiry > 0, volatility > 0
and dividend ≥ 0, the call delta lies in [0, 1], the put delta lies in
[-1, 0], and gamma and vega are nonnegative. -/
theorem bs_greek_bounds (S K T r σ q : ℝ) (hS : 0 < S) (hK : 0 < K) (hT : 0 < T)
    (hσ : 0 < σ) (hq : 0 ≤ q) :
    0 ≤ black_scholes_delta S K T r σ .CALL q ∧
    black_scholes_delta S K T r σ .CALL q ≤ 1 ∧
    -1 ≤ black_scholes_delta S K T r σ .PUT q ∧
    black_scholes_delta S K T r σ .PUT q ≤ 0 ∧
    0 ≤ black_scholes_gamma S K T r σ q ∧
    0 ≤ black_scholes_vega S K T r σ q := by
  have hexp_le : Real.exp (-q * T) ≤ 1 := by
    rw [Real.exp_le_one_iff]
    nlinarith
  have hexp_pos : (0:ℝ) < Real.exp (-q * T) := Real.exp_pos _
  have hcall_unit : Real.exp (-q * T) * normCdf (_d1 S K T r σ q) ≤ 1 :=
    mul_le_one₀ hexp_le (normCdf_nonneg _) (normCdf_le_one _)
  have hput_unit : Real.exp (-q * T) * normCdf (-(_d1 S K T r σ q)) ≤ 1 :=
    mul_le_one₀ hexp_le (normCdf_nonneg _) (normCdf_le_one _)
  refine ⟨?_, ?_, ?_, ?_, ?_, ?_⟩
  · rw [bs_delta_call_of_pos S K T r σ q hT]
    exact mul_nonneg hexp_pos.le (normCdf_nonneg _)
  · rw [bs_delta_call_of_pos S K T r σ q hT]
    exact hcall_unit
  · rw [bs_delta_put_of_pos S K T r σ q hT]
    linarith
  · rw [bs_delta_put_of_pos S K T r σ q hT]
    have := mul_nonneg hexp_pos.le (normCdf_nonneg (-(_d1 S K T r σ q)))
    linarith
  · unfold black_scholes_gamma
    rw [if_neg (not_le.mpr hT)]
    exact div_nonneg (mul_nonneg hexp_pos.le (normPdf_nonneg _)) (by positivity)
  · unfold black_scholes_vega
    rw [if_neg (not_le.mpr hT)]
    have h1 : (0:ℝ) ≤ S * Real.exp (-q * T) * normPdf (_d1 S K T r σ q) *
        Real.sqrt T := by
      have := normPdf_nonneg (_d1 S K T r σ q)
      positivity
    exact div_nonneg h1 (by norm_num)

/-- Witness for C7 at S=100, K=110, T=2, r=0.03, σ=0.25, q=0.01. -/
theorem bs_greek_bounds_witness :
    0 ≤ black_scholes_delta 100 110 2 0.03 0.25 .CALL 0.01 ∧
    black_scholes_delta 100 110 2 0.03 0.25 .CALL 0.01 ≤ 1 ∧
    -1 ≤ black_scholes_delta 100 110 2 0.03 0.25 .PUT 0.01 ∧
    black_scholes_delta 100 110 2 0.03 0.25 .PUT 0.01 ≤ 0 ∧
    0 ≤ black_scholes_gamma 100 110 2 0.03 0.25 0.01 ∧
    0 ≤ black_scholes_vega 100 110 2 0.03 0.25 0.01 :=
  bs_greek_bounds 100 110 2 0.03 0.25 0.01 (by norm_num) (by norm_num) (by norm_num)
    (by norm_num) (by norm_num)

/-- C1 counterexample: with market_price = 1 > 0 but time_to_expiry = 0, the
function returns 0.0, which lies outside [0.001, 5.0]; so the range
guarantee does not hold for every call with positive market price. -/
theorem implied_vol_range_counterexample :
    (0:ℝ) < 1 ∧
    implied_volatility_from_price (fun _ => none) 1 100 100 0 0.05 .CALL
      .black_scholes none = 0 ∧
    ¬ (0.001 ≤ implied_volatility_from_price (fun _ => none) 1 100 100 0 0.05 .CALL
        .black_scholes none ∧
      implied_volatility_from_price (fun _ => none) 1 100 100 0 0.05 .CALL
        .black_scholes none ≤ 5) := by
  have h : implied_volatility_from_price (fun _ => none) 1 100 100 0 0.05 .CALL
      .black_scholes none = 0 := by
    unfold implied_volatility_from_price
    rw [if_pos (Or.inl le_rfl)]
  refine ⟨by norm_num, h, ?_⟩
  rw [h]
  norm_num

/-- C1 (amended): for market_price > 0 and time_to_expiry > 0, whatever the
root-finder does, the result lies in [0.001, 5.0]; if brentq raises
(bracketing failure) the result is exactly 0.20, and if brentq returns a
root the result is that root clamped to [0.001, 5.0]. -/
theorem implied_vol_range (brentq : (ℝ → ℝ) → Option ℝ)
    (market_price S K T r : ℝ) (option_type : OptionType) (model : PricingModel)
    (params : Option (List (ℝ × ℝ))) (hm : 0 < market_price) (hT : 0 < T) :
    (0.001 ≤ implied_volatility_from_price brentq market_price S K T r option_type
        model params ∧
      implied_volatility_from_price brentq market_price S K T r option_type
        model params ≤ 5) ∧
    (brentq (iv_objective market_price S K T r option_type model) = none →
      implied_volatility_from_price brentq market_price S K T r option_type
        model params = 0.20) ∧
    (∀ iv, brentq (iv_objective market_price S K T r option_type model) = some iv →
      implied_volatility_from_price brentq market_price S K T r option_type
        model params = max 0.001 (min 5.0 iv)) := by
  unfold implied_volatility_from_price
  rw [if_neg (by push_neg; exact ⟨hT, hm⟩)]
  refine ⟨?_, ?_, ?_⟩
  · cases hbr : brentq (iv_objective market_price S K T r option_type model) with
    | none => norm_num
    | some iv =>
        constructor
        · exact le_max_left _ _
        · exact max_le (by norm_num) ((min_le_left _ _).trans (by norm_num))
  · intro hbr
    rw [hbr]
  · intro iv hbr
    rw [hbr]

/-- Witness for C1 (amended) at market_price = 1, T = 1, with a root finder
that raises. -/
theorem implied_vol_range_witness :
    ((0.001 ≤ implied_volatility_from_price (fun _ => none) 1 100 100 1 0.05 .CALL
        .black_scholes none ∧
      implied_volatility_from_price (fun _ => none) 1 100 100 1 0.05 .CALL
        .black_scholes none ≤ 5) ∧
    ((fun _ => (none : Option ℝ)) (iv_objective 1 100 100 1 0.05 .CALL
        .black_scholes) = none →
      implied_volatility_from_price (fun _ => none) 1 100 100 1 0.05 .CALL
        .black_scholes none = 0.20) ∧
    (∀ iv, (fun _ => (none : Option ℝ)) (iv_objective 1 100 100 1 0.05 .CALL
        .black_scholes) = some iv →
      implied_volatility_from_price (fun _ => none) 1 100 100 1 0.05 .CALL
        .black_scholes none = max 0.001 (min 5.0 iv))) :=
  implied_vol_range (fun _ => none) 1 100 100 1 0.05 .CALL .black_scholes none
    (by norm_num) (by norm_num)

/-- C9: the result of implied_volatility_from_price does not depend on the
model or model_params arguments, because the objective evaluates
black_scholes_price identically in every model branch. -/
theorem implied_vol_model_independent (brentq : (ℝ → ℝ) → Option ℝ)
    (market_price S K T r : ℝ) (option_type : OptionType)
    (m1 m2 : PricingModel) (p1 p2 : Option (List (ℝ × ℝ))) :
    implied_volatility_from_price brentq market_price S K T r option_type m1 p1 =
      implied_volatility_from_price brentq market_price S K T r option_type m2 p2 := by
  have hobj : ∀ m : PricingModel,
      iv_objective market_price S K T r option_type m =
        iv_objective market_price S K T r option_type .black_scholes := by
    intro m
    cases m <;> rfl
  unfold implied_volatility_from_price
  rw [hobj m1, hobj m2]

/-- C10: for time_to_expiry ≤ 0 or market_price ≤ 0 the function returns
exactly 0.0 — outside the documented range [0.001, 5.0] and distinct from
the 0.20 fallback sentinel — whatever the root-finder would do. -/
theorem implied_vol_degenerate_zero (brentq : (ℝ → ℝ) → Option ℝ)
    (market_price S K T r : ℝ) (option_type : OptionType) (model : PricingModel)
    (params : Option (List (ℝ × ℝ))) (h : T ≤ 0 ∨ market_price ≤ 0) :
    implied_volatility_from_price brentq market_price S K T r option_type
        model params = 0 ∧
    ¬ (0.001 ≤ implied_volatility_from_price brentq market_price S K T r option_type
        model params) ∧
    implied_volatility_from_price brentq market_price S K T r option_type
        model params ≠ 0.20 := by
  have h0 : implied_volatility_from_price brentq market_price S K T r option_type
      model params = 0 := by
    unfold implied_volatility_from_price
    rw [if_pos h]
  refine ⟨h0, ?_, ?_⟩ <;> rw [h0] <;> norm_num

/-- Witness for C10 at time_to_expiry = 0 and market_price = 1. -/
theorem implied_vol_degenerate_zero_witness :
    implied_volatility_from_price (fun _ => some 0.3) 1 100 100 0 0.05 .PUT
        .heston none = 0 ∧
    ¬ (0.001 ≤ implied_volatility_from_price (fun _ => some 0.3) 1 100 100 0 0.05 .PUT
        .heston none) ∧
    implied_volatility_from_price (fun _ => some 0.3) 1 100 100 0 0.05 .PUT
        .heston none ≠ 0.20 :=
  implied_vol_degenerate_zero (fun _ => some 0.3) 1 100 100 0 0.05 .PUT .heston none
    (Or.inl le_rfl)

/-- C4: if the Heston numerical integration raises, the probability is the
0.5 fallback (no error propagates); and for time_to_expiry > 0 the Heston
price is nonnegative (floored at 0 via max), whatever the integrations
return. -/
theorem heston_fallback_and_floor :
    HestonModel._heston_probability none = 0.5 ∧
    ∀ (I1 I2 : Option ℝ) (S K T r : ℝ) (option_type : OptionType), 0 < T →
      0 ≤ HestonModel.price I1 I2 S K T r option_type := by
  refine ⟨rfl, ?_⟩
  intro I1 I2 S K T r option_type hT
  unfold HestonModel.price
  rw [if_neg (not_le.mpr hT)]
  cases option_type with
  | CALL => exact le_max_left 0 _
  | PUT => exact le_max_left 0 _

/-- Witness for C4 with a raising integration on both probabilities at T = 1. -/
theorem heston_fallback_and_floor_witness :
    HestonModel._heston_probability none = 0.5 ∧
    0 ≤ HestonModel.price none none 100 100 1 0.05 .CALL :=
  ⟨heston_fallback_and_floor.1,
    heston_fallback_and_floor.2 none none 100 100 1 0.05 .CALL (by norm_num)⟩

/-- C6 counterexample: four raw points in general 2-D position (distinct,
non-collinear (moneyness, expiry) pairs, so the scipy cascade completes
without raising) that all carry implied_vol -1.  Every interpolated value
is then -1, the only input value available to the cubic/linear/nearest
cascade, so the representative grid cell carries -1; every cell is
filtered out, the function falls back to the raw points, and the output
list contains a point whose implied_vol is not strictly positive. -/
theorem interpolate_surface_counterexample :
    SurfaceService._interpolate_surface (some [(0.95, 0.3, some (-1))])
        [⟨90, 0.1, -1, 0.9⟩, ⟨110, 0.1, -1, 1.1⟩, ⟨90, 0.5, -1, 0.9⟩, ⟨100, 1, -1, 1⟩]
        100 =
      some [⟨90, 0.1, -1, 0.9⟩, ⟨110, 0.1, -1, 1.1⟩, ⟨90, 0.5, -1, 0.9⟩,
        ⟨100, 1, -1, 1⟩] ∧
    (⟨90, 0.1, -1, 0.9⟩ : VolSurfacePoint) ∈
      [(⟨90, 0.1, -1, 0.9⟩ : VolSurfacePoint), ⟨110, 0.1, -1, 1.1⟩, ⟨90, 0.5, -1, 0.9⟩,
        ⟨100, 1, -1, 1⟩] ∧
    ¬ (0 < (⟨90, 0.1, -1, 0.9⟩ : VolSurfacePoint).implied_vol) := by
  refine ⟨?_, by simp, by norm_num⟩
  unfold SurfaceService._interpolate_surface
  norm_num [List.filterMap]

/-- C6 (amended): with fewer than 4 raw points the interpolator returns
them unchanged without touching the interpolation cascade; whenever a
point list is returned, it either consists only of points with strictly
positive implied_vol (the filtered grid) or is exactly the raw input (the
fallback when the filter leaves nothing), and it is non-empty whenever the
input is; but with 4 or more points a raise inside the uncaught
linear/nearest retry of the cascade propagates, and no list is returned at
all. -/
theorem interpolate_surface_amended (gridIV : Option (List (ℝ × ℝ × Option ℝ)))
    (raw : List VolSurfacePoint) (spot : ℝ) :
    (raw.length < 4 →
      SurfaceService._interpolate_surface gridIV raw spot = some raw) ∧
    (∀ out, SurfaceService._interpolate_surface gridIV raw spot = some out →
      ((∀ p ∈ out, 0 < p.implied_vol) ∨ out = raw) ∧ (raw ≠ [] → out ≠ [])) ∧
    (4 ≤ raw.length → gridIV = none →
      SurfaceService._interpolate_surface gridIV raw spot = none) := by
  unfold SurfaceService._interpolate_surface
  by_cases hlen : raw.length < 4
  · rw [if_pos hlen]
    refine ⟨fun _ => rfl, ?_, fun h4 _ => absurd hlen (by omega)⟩
    intro out hout
    obtain rfl := Option.some.inj hout
    exact ⟨Or.inr rfl, fun h => h⟩
  · rw [if_neg hlen]
    cases gridIV with
    | none =>
        exact ⟨fun h => absurd h hlen, fun out hout => by simp at hout, fun _ _ => rfl⟩
    | some cells =>
        refine ⟨fun h => absurd h hlen, ?_, fun _ h => by simp at h⟩
        intro out hout
        have hq := Option.some.inj hout
        set ip := cells.filterMap fun cell =>
          match cell.2.2 with
          | none => none
          | some v =>
            if v ≤ 0 then none
            else some (⟨cell.1 * spot, cell.2.1, v, cell.1⟩ : VolSurfacePoint) with hip_def
        by_cases hemp : ip.isEmpty
        · rw [if_pos hemp] at hq
          obtain rfl := hq
          exact ⟨Or.inr rfl, fun h => h⟩
        · rw [if_neg hemp] at hq
          obtain rfl := hq
          constructor
          · left
            intro p hp
            rw [hip_def, List.mem_filterMap] at hp
            obtain ⟨cell, _, hcell⟩ := hp
            rcases hv : cell.2.2 with _ | v
            · rw [hv] at hcell
              simp at hcell
            · rw [hv] at hcell
              by_cases hle : v ≤ 0
              · simp only [if_pos hle] at hcell
                simp at hcell
              · simp only [if_neg hle] at hcell
                have heq := Option.some.inj hcell
                rw [← heq]
                exact lt_of_not_le hle
          · intro _ h
            rw [h] at hemp
            simp at hemp

/-- Witness for C6 (amended): a single-point input passes through unchanged,
and a 4-point input whose cascade raises produces no list. -/
theorem interpolate_surface_amended_witness :
    SurfaceService._interpolate_surface (some []) [⟨100, 1, 0.2, 1⟩] 100 =
      some [⟨100, 1, 0.2, 1⟩] ∧
    SurfaceService._interpolate_surface none
        [⟨90, 1, 0.2, 0.9⟩, ⟨95, 1, 0.2, 0.95⟩, ⟨105, 1, 0.2, 1.05⟩, ⟨110, 1, 0.2, 1.1⟩]
        100 = none :=
  ⟨(interpolate_surface_amended (some []) [⟨100, 1, 0.2, 1⟩] 100).1 (by norm_num),
    (interpolate_surface_amended none
        [⟨90, 1, 0.2, 0.9⟩, ⟨95, 1, 0.2, 0.95⟩, ⟨105, 1, 0.2, 1.05⟩, ⟨110, 1, 0.2, 1.1⟩]
        100).2.2 (by norm_num) rfl⟩

lemma mertonLoop_eq_sum (w t : ℕ → ℝ) (fuel : ℕ) : ∀ n,
    mertonLoop w t n fuel =
      ∑ i ∈ Finset.range (stopFrom w n fuel), w (n + i) * t (n + i) := by
  induction fuel with
  | zero =>
      intro n
      simp [mertonLoop, stopFrom]
  | succ fuel ih =>
      intro n
      simp only [mertonLoop, stopFrom]
      by_cases h : w n < 1e-10
      · rw [if_pos h, if_pos h]
        simp
      · rw [if_neg h, if_neg h, ih (n + 1), Finset.sum_range_succ']
        simp only [Nat.add_zero]
        rw [add_comm]
        congr 1
        refine Finset.sum_congr rfl fun i _ => ?_
        rw [show n + (i + 1) = n + 1 + i from by omega]

lemma stopFrom_le (w : ℕ → ℝ) (fuel : ℕ) : ∀ n, stopFrom w n fuel ≤ fuel := by
  induction fuel with
  | zero =>
      intro n
      simp [stopFrom]
  | succ fuel ih =>
      intro n
      simp only [stopFrom]
      by_cases h : w n < 1e-10
      · rw [if_pos h]
        omega
      · rw [if_neg h]
        have := ih (n + 1)
        omega

lemma stopFrom_before (w : ℕ → ℝ) (fuel : ℕ) :
    ∀ n i, i < stopFrom w n fuel → ¬ w (n + i) < 1e-10 := by
  induction fuel with
  | zero =>
      intro n i hi
      simp [stopFrom] at hi
  | succ fuel ih =>
      intro n i hi
      simp only [stopFrom] at hi
      by_cases h : w n < 1e-10
      · rw [if_pos h] at hi
        omega
      · rw [if_neg h] at hi
        cases i with
        | zero => simpa using h
        | succ j =>
            have hj : j < stopFrom w (n + 1) fuel := by omega
            have := ih (n + 1) j hj
            rwa [show n + (j + 1) = n + 1 + j from by omega]

lemma stopFrom_hit (w : ℕ → ℝ) (fuel : ℕ) :
    ∀ n, stopFrom w n fuel < fuel → w (n + stopFrom w n fuel) < 1e-10 := by
  induction fuel with
  | zero =>
      intro n h
      omega
  | succ fuel ih =>
      intro n h
      simp only [stopFrom] at h ⊢
      by_cases hw : w n < 1e-10
      · rw [if_pos hw]
        simpa using hw
      · rw [if_neg hw] at h ⊢
        have hlt : stopFrom w (n + 1) fuel < fuel := by omega
        have := ih (n + 1) hlt
        rwa [show n + (stopFrom w (n + 1) fuel + 1) = n + 1 + stopFrom w (n + 1) fuel
          from by omega]

/-- C8: for time_to_expiry > 0, MertonJumpDiffusion.price sums exactly the
series terms strictly before the first index (within max_jumps) whose
Poisson weight with lambda_prime = lambda_j*(1+mu_j) drops below 1e-10:
every summed index has weight ≥ 1e-10, the cut index (when it is below
max_jumps) has weight < 1e-10, and at most max_jumps terms are summed. -/
theorem merton_series_truncation (spot strike T rate sigma lambda_j mu_j sigma_j : ℝ)
    (option_type : OptionType) (max_jumps : ℕ) (hT : 0 < T) :
    MertonJumpDiffusion.price spot strike T rate sigma lambda_j mu_j sigma_j
        option_type max_jumps =
      max 0 (∑ i ∈ Finset.range
          (stopFrom (poissonProb (lambda_j * (1 + mu_j)) T) 0 max_jumps),
        poissonProb (lambda_j * (1 + mu_j)) T i *
          mertonTerm spot strike T rate sigma lambda_j mu_j sigma_j option_type i) ∧
    stopFrom (poissonProb (lambda_j * (1 + mu_j)) T) 0 max_jumps ≤ max_jumps ∧
    (∀ i < stopFrom (poissonProb (lambda_j * (1 + mu_j)) T) 0 max_jumps,
      ¬ poissonProb (lambda_j * (1 + mu_j)) T i < 1e-10) ∧
    (stopFrom (poissonProb (lambda_j * (1 + mu_j)) T) 0 max_jumps < max_jumps →
      poissonProb (lambda_j * (1 + mu_j)) T
        (stopFrom (poissonProb (lambda_j * (1 + mu_j)) T) 0 max_jumps) < 1e-10) := by
  refine ⟨?_, stopFrom_le _ _ 0, ?_, ?_⟩
  · unfold MertonJumpDiffusion.price
    rw [if_neg (not_le.mpr hT)]
    show max 0 (mertonLoop (poissonProb (lambda_j * (1 + mu_j)) T)
        (mertonTerm spot strike T rate sigma lambda_j mu_j sigma_j option_type)
        0 max_jumps) = _
    rw [mertonLoop_eq_sum _ _ _ 0]
    congr 1
    exact Finset.sum_congr rfl fun i _ => by rw [Nat.zero_add]
  · intro i hi
    have := stopFrom_before (poissonProb (lambda_j * (1 + mu_j)) T) max_jumps 0 i hi
    rwa [Nat.zero_add] at this
  · intro h
    have := stopFrom_hit (poissonProb (lambda_j * (1 + mu_j)) T) max_jumps 0 h
    rwa [Nat.zero_add] at this

/-- Witness for C8 at T = 1 with the default 50-jump budget. -/
theorem merton_series_truncation_witness :
    MertonJumpDiffusion.price 100 100 1 0.05 0.2 0.5 0.1 0.15 .CALL 50 =
      max 0 (∑ i ∈ Finset.range
          (stopFrom (poissonProb (0.5 * (1 + 0.1)) 1) 0 50),
        poissonProb (0.5 * (1 + 0.1)) 1 i *
          mertonTerm 100 100 1 0.05 0.2 0.5 0.1 0.15 .CALL i) ∧
    stopFrom (poissonProb (0.5 * (1 + 0.1)) 1) 0 50 ≤ 50 ∧
    (∀ i < stopFrom (poissonProb (0.5 * (1 + 0.1)) 1) 0 50,
      ¬ poissonProb (0.5 * (1 + 0.1)) 1 i < 1e-10) ∧
    (stopFrom (poissonProb (0.5 * (1 + 0.1)) 1) 0 50 < 50 →
      poissonProb (0.5 * (1 + 0.1)) 1
        (stopFrom (poissonProb (0.5 * (1 + 0.1)) 1) 0 50) < 1e-10) :=
  merton_series_truncation 100 100 1 0.05 0.2 0.5 0.1 0.15 .CALL 50 (by norm_num)

lemma mertonTerm_zero_jump (S K T r σ mu_j sigma_j : ℝ) (hT : 0 < T) (hσ : 0 < σ)
    (ot : OptionType) :
    mertonTerm S K T r σ 0 mu_j sigma_j ot 0 = black_scholes_price S K T r σ ot 0 := by
  have hsn : Real.sqrt (σ ^ 2 + (Nat.cast 0) * sigma_j ^ 2 / T) = σ := by
    norm_num [Real.sqrt_sq hσ.le]
  cases ot with
  | CALL =>
      rw [bs_price_call_of_pos S K T r σ 0 hT]
      simp only [mertonTerm]
      rw [hsn]
      unfold _d1 _d2
      norm_num
  | PUT =>
      rw [bs_price_put_of_pos S K T r σ 0 hT]
      simp only [mertonTerm]
      rw [hsn]
      unfold _d1 _d2
      norm_num

/-- C5: with jump intensity lambda_j = 0 the Merton jump-diffusion price
(default 50-term budget) equals the Black-Scholes price on the same spot,
strike, expiry, rate, volatility and option type with dividend 0: the
Poisson series degenerates to the n = 0 term with weight 1 and every
n ≥ 1 term is cut off. -/
theorem merton_zero_jumps_eq_black_scholes (S K T r σ mu_j sigma_j : ℝ)
    (hS : 0 < S) (hK : 0 < K) (hT : 0 < T) (hσ : 0 < σ) (ot : OptionType) :
    MertonJumpDiffusion.price S K T r σ 0 mu_j sigma_j ot 50 =
      black_scholes_price S K T r σ ot 0 := by
  have hw0 : poissonProb (0 * (1 + mu_j)) T 0 = 1 := by
    unfold poissonProb
    norm_num
  have hw1 : poissonProb (0 * (1 + mu_j)) T (0 + 1) = 0 := by
    unfold poissonProb
    norm_num
  have hloop : mertonLoop (poissonProb (0 * (1 + mu_j)) T)
      (mertonTerm S K T r σ 0 mu_j sigma_j ot) 0 50 =
      mertonTerm S K T r σ 0 mu_j sigma_j ot 0 := by
    rw [show (50:ℕ) = 49 + 1 from rfl]
    simp only [mertonLoop]
    rw [if_neg (by rw [hw0]; norm_num)]
    rw [if_pos (by rw [hw1]; norm_num)]
    rw [hw0]
    ring
  unfold MertonJumpDiffusion.price
  rw [if_neg (not_le.mpr hT)]
  show max 0 (mertonLoop (poissonProb (0 * (1 + mu_j)) T)
      (mertonTerm S K T r σ 0 mu_j sigma_j ot) 0 50) = _
  rw [hloop, mertonTerm_zero_jump S K T r σ mu_j sigma_j hT hσ ot]
  exact max_eq_right (black_scholes_price_nonneg S K T r σ 0 hS hK hT hσ ot)

/-- Witness for C5 at S=100, K=100, T=1, r=0.05, σ=0.2, mu_j=0.1,
sigma_j=0.15, call. -/
theorem merton_zero_jumps_eq_black_scholes_witness :
    MertonJumpDiffusion.price 100 100 1 0.05 0.2 0 0.1 0.15 .CALL 50 =
      black_scholes_price 100 100 1 0.05 0.2 .CALL 0 :=
  merton_zero_jumps_eq_black_scholes 100 100 1 0.05 0.2 0.1 0.15 (by norm_num)
    (by norm_num) (by norm_num) (by norm_num) .CALL
